import Mathlib

/-! Shallow embedding of `src/atomic_list.rs` (crate `atomic_list`): a lock-free,
multi-producer prepend list with a one-shot consuming drain.

The Rust source defines:
  * `Node<T> { value: T, next: NodePtr<T> }` with
    `type NodePtr<T> = Option<Box<Node<T>>>`;
  * `AtomicList<T>(AtomicPtr<Node<T>>)` holding the head pointer;
  * `into_raw` / `from_raw` converting between `NodePtr<T>` and raw pointers
    (with `None` mapped to the null pointer);
  * `push`, a CAS retry loop prepending one freshly allocated node;
  * `Drop for AtomicList`, which swaps the head to null and drops the chain;
  * `into_iter` / `AtomicListIterator::next`, the consuming drain.

We embed the chain as the inductive `Node` (a box is just its pointee here) and
`NodePtr α = Option (Node α)`, raw pointers as `RawPtr`, and model the CAS loop
of `push` operationally: a run of the loop is determined by the finite sequence
of head values observed at each failed CAS attempt.  A separate indexed-heap
model (`HState`) is used for the ownership/acyclicity invariant, where nodes
are addressed by indices into an allocation list and links can in principle
alias or form cycles, so that acyclicity is a real property.
-/

/-- Embeds `struct Node<T> { value: T, next: NodePtr<T> }`.  The `Box`
indirection has no observable content in a functional model, so `next` holds
the pointee directly, `Option`-wrapped exactly as `NodePtr<T>` is. -/
inductive Node (α : Type) where
  | mk (value : α) (next : Option (Node α))

/-- Embeds `type NodePtr<T> = Option<Box<Node<T>>>`. -/
abbrev NodePtr (α : Type) := Option (Node α)

/-- The value field of a node. -/
def Node.value {α : Type} : Node α → α
  | .mk v _ => v

/-- The next field of a node. -/
def Node.next {α : Type} : Node α → NodePtr α
  | .mk _ n => n

/-- Embeds `*mut Node<T>`: a raw pointer is either null or addresses a node
(the chain it heads). -/
inductive RawPtr (α : Type) where
  | null
  | addr (node : Node α)

/-- Embeds `fn into_raw<T>(ptr: NodePtr<T>) -> *mut Node<T>`:
`Some(b) => Box::into_raw(b)`, `None => ptr::null_mut()`. -/
def into_raw {α : Type} : NodePtr α → RawPtr α
  | some b => RawPtr.addr b
  | none => RawPtr.null

/-- Embeds `unsafe fn from_raw<T>(ptr: *mut Node<T>) -> NodePtr<T>`:
`if ptr == ptr::null_mut() { None } else { Some(Box::from_raw(ptr)) }`. -/
def from_raw {α : Type} : RawPtr α → NodePtr α
  | RawPtr.null => none
  | RawPtr.addr b => some b

namespace AtomicList

/-- Embeds `AtomicList::new`: the head starts as `into_raw(None)`, i.e. the
null pointer, i.e. the empty chain. -/
def new (α : Type) : NodePtr α := from_raw (into_raw none)

/-- Embeds one terminating run of the CAS retry loop inside `AtomicList::push`.
The node `Node { value, next: None }` was allocated once before the loop; each
iteration stores the current expectation into `node.next` and attempts
`compare_exchange_weak(current, node, AcqRel, Relaxed)`.  `failures` is the
sequence of actual head values returned by each failed attempt (the code then
sets `current` to that value and retries); after the last failure the CAS
succeeds, installing the node with `next` equal to the last observed head, and
the new head is the pushed node. -/
def pushLoop {α : Type} (value : α) (current : NodePtr α) :
    List (NodePtr α) → NodePtr α
  | [] => some (Node.mk value current)
  | actual :: rest => pushLoop value actual rest

/-- Embeds `AtomicList::push` in an uncontended run: the initial relaxed load
reads `head`, and the first CAS attempt succeeds. -/
def push {α : Type} (head : NodePtr α) (value : α) : NodePtr α :=
  pushLoop value head []

/-- A single-threaded sequence of pushes, first element pushed first. -/
def pushSeq {α : Type} (head : NodePtr α) (values : List α) : NodePtr α :=
  values.foldl push head

/-- Embeds `AtomicList::into_iter`: swaps the head with `into_raw(None)` and
hands the previous chain to the iterator.  Returns the initial iterator
state paired with the head value left in the consumed list. -/
def intoIter {α : Type} (head : NodePtr α) : NodePtr α × NodePtr α :=
  (from_raw (into_raw head), from_raw (into_raw none))

end AtomicList

namespace AtomicListIterator

/-- Embeds `AtomicListIterator::next`: load the cursor; `from_raw` of the null
pointer is `None` and the `map` does nothing (the cursor is not written); on a
node, destructure it, store `into_raw(next)` into the cursor and return the
value.  The result is the yielded element paired with the new cursor state. -/
def next {α : Type} : NodePtr α → Option α × NodePtr α
  | none => (none, none)
  | some (Node.mk value nxt) => (some value, from_raw (into_raw nxt))

/-- The cursor state after `k` calls to `next`. -/
def stateAfter {α : Type} (s : NodePtr α) : Nat → NodePtr α
  | 0 => s
  | k + 1 => stateAfter (next s).2 k

/-- The list of values produced by driving `next` until it yields `None`
(collecting the iterator, as `into_iter().collect::<Vec<_>>()` does). -/
def drainAll {α : Type} : NodePtr α → List α
  | none => []
  | some (Node.mk value nxt) => value :: drainAll nxt

end AtomicListIterator

/-- Consume the whole list: `into_iter` then collect the iterator. -/
def drain {α : Type} (head : NodePtr α) : List α :=
  AtomicListIterator.drainAll (AtomicList.intoIter head).1

/-- Embeds the nesting depth of the destructor calls performed by
`impl Drop for AtomicList`: `drop` swaps the head to null and runs
`from_raw(p)`, dropping the resulting `Option<Box<Node<T>>>`.  Dropping a
boxed node runs the derived drop glue of `Node<T>`, which drops `value` and
then drops `next` — recursively another boxed node.  Each nested node adds one
stack frame, so this function counts the destructor nesting depth reached
while freeing the chain. -/
def dropGlueDepth {α : Type} : NodePtr α → Nat
  | none => 0
  | some (Node.mk _ nxt) => dropGlueDepth nxt + 1

/-- Embeds the body of `impl Drop for AtomicList`: swap the head with
`into_raw(None)` (leaving the list empty) and rebuild the owned chain with
`from_raw(p)`; the rebuilt chain is then dropped.  Returns the chain handed to
the destructor. -/
def AtomicList.dropImpl {α : Type} (head : NodePtr α) : NodePtr α :=
  from_raw (into_raw head)

/-- Embeds `std::sync::atomic::Ordering`. -/
inductive MemOrdering where
  | Relaxed
  | Acquire
  | Release
  | AcqRel
  | SeqCst
deriving DecidableEq, Repr

/-- One observable step of the body of `AtomicList::push`: the single
`Box::new` allocation, the initial relaxed head load, the
`replace_forget(&mut node.next, from_raw(current))` write of each iteration,
and the `compare_exchange_weak(current, node, AcqRel, Relaxed)` outcome of
each iteration. -/
inductive PushEvent (α : Type) where
  | alloc (node : Node α)
  | headLoad (ord : MemOrdering) (value : NodePtr α)
  | setNext (expected : NodePtr α)
  | casFailure (ord : MemOrdering) (expected actual : NodePtr α)
  | casSuccess (ord : MemOrdering) (expected installed : NodePtr α)

/-- The events of the CAS retry loop of `AtomicList::push`, one terminating
run: each iteration writes the expectation into `node.next` and attempts the
CAS with `Ordering::AcqRel` on success and `Ordering::Relaxed` on failure; on
failure the expectation becomes the actual value the CAS reported. -/
def casLoopEvents {α : Type} (value : α) (current : NodePtr α) :
    List (NodePtr α) → List (PushEvent α)
  | [] => [PushEvent.setNext current,
           PushEvent.casSuccess MemOrdering.AcqRel current
             (some (Node.mk value current))]
  | actual :: rest =>
      PushEvent.setNext current ::
        PushEvent.casFailure MemOrdering.Relaxed current actual ::
          casLoopEvents value actual rest

/-- The full event trace of one terminating `AtomicList::push` call:
`Box::new(Node { value, next: None })`, then `self.0.load(Ordering::Relaxed)`,
then the CAS retry loop. -/
def pushEvents {α : Type} (value : α) (head0 : NodePtr α)
    (failures : List (NodePtr α)) : List (PushEvent α) :=
  PushEvent.alloc (Node.mk value none) ::
    PushEvent.headLoad MemOrdering.Relaxed head0 ::
      casLoopEvents value head0 failures

/-- The number of node allocations recorded in a push trace. -/
def allocCount {α : Type} (events : List (PushEvent α)) : Nat :=
  (events.filter fun e =>
    match e with
    | PushEvent.alloc _ => true
    | _ => false).length

/-- The orderings of the successful CAS attempts recorded in a push trace. -/
def casSuccessOrds {α : Type} (events : List (PushEvent α)) : List MemOrdering :=
  events.filterMap fun e =>
    match e with
    | PushEvent.casSuccess ord _ _ => some ord
    | _ => none

/-- The orderings of the failed CAS attempts recorded in a push trace. -/
def casFailureOrds {α : Type} (events : List (PushEvent α)) : List MemOrdering :=
  events.filterMap fun e =>
    match e with
    | PushEvent.casFailure ord _ _ => some ord
    | _ => none

/-! An indexed-heap model for the ownership and acyclicity invariant.  Here a
node lives at an index into an allocation list and links are raw indices, so
aliasing and cycles are expressible and acyclicity is a real property of the
operations rather than a consequence of the representation. -/

/-- The list head together with the allocation heap: `nodes.get i` is the node
at address `i` (its value and the address its `next` link holds, `none` for
null), `head` is the address held by the `AtomicPtr` (null as `none`).
Addresses are never reused, matching the allocator contract the code relies
on. -/
structure HState (α : Type) where
  nodes : List (α × Option Nat)
  head : Option Nat

namespace HState

/-- `AtomicList::new` in the heap model: empty heap, null head. -/
def new (α : Type) : HState α := ⟨[], none⟩

/-- An uncontended `AtomicList::push` in the heap model: allocate a fresh node
whose link holds the current head address and install its address as head. -/
def push {α : Type} (s : HState α) (value : α) : HState α :=
  ⟨s.nodes ++ [(value, s.head)], some s.nodes.length⟩

/-- The head swap of `AtomicList::into_iter` in the heap model: the chain is
detached, the list keeps a null head. -/
def drainSwap {α : Type} (s : HState α) : HState α := ⟨s.nodes, none⟩

/-- The head swap of `impl Drop for AtomicList` in the heap model: the chain
is detached for teardown, the list keeps a null head. -/
def dropSwap {α : Type} (s : HState α) : HState α := ⟨s.nodes, none⟩

/-- `ValidChain nodes p is` says that starting from the address `p` and
following `next` links, one traverses exactly the addresses `is` and reaches
null: every address on the way is allocated. -/
inductive ValidChain {α : Type} (nodes : List (α × Option Nat)) :
    Option Nat → List Nat → Prop
  | nil : ValidChain nodes none []
  | cons {i : Nat} {is : List Nat} (h : i < nodes.length)
      (hnext : ValidChain nodes (nodes.get ⟨i, h⟩).2 is) :
      ValidChain nodes (some i) (i :: is)

/-- The structural well-formedness the operations maintain: every allocated
node links only to a strictly earlier allocation, and the head, when non-null,
addresses the most recent allocation. -/
def WF {α : Type} (s : HState α) : Prop :=
  (∀ j (h : j < s.nodes.length) k, (s.nodes.get ⟨j, h⟩).2 = some k → k < j) ∧
  (∀ i, s.head = some i → i + 1 = s.nodes.length)

end HState

/-! Helper lemmas shared by the verification below. -/

namespace HState

theorem validChain_mem_lt {α : Type} {nodes : List (α × Option Nat)} :
    ∀ {p : Option Nat} {is : List Nat}, ValidChain nodes p is →
      ∀ j ∈ is, j < nodes.length := by
  intro p is h
  induction h with
  | nil => intro j hj; cases hj
  | cons hi _ ih =>
      intro j hj
      rcases List.mem_cons.mp hj with rfl | hj
      · exact hi
      · exact ih j hj

theorem validChain_append {α : Type} {nodes : List (α × Option Nat)}
    (x : α × Option Nat) :
    ∀ {p : Option Nat} {is : List Nat}, ValidChain nodes p is →
      ValidChain (nodes ++ [x]) p is := by
  intro p is h
  induction h with
  | nil => exact ValidChain.nil
  | cons hi _ ih =>
      refine ValidChain.cons (by simp; omega) ?_
      rw [List.get_append _ hi]
      exact ih

theorem exists_validChain {α : Type} (nodes : List (α × Option Nat))
    (hwf : ∀ j (h : j < nodes.length) k, (nodes.get ⟨j, h⟩).2 = some k → k < j) :
    ∀ i, ∀ _ : i < nodes.length,
      ∃ is, ValidChain nodes (some i) is ∧ is.Nodup ∧ ∀ j ∈ is, j ≤ i := by
  intro i
  induction i using Nat.strong_induction_on with
  | _ i ih =>
      intro hi
      cases hnext : (nodes.get ⟨i, hi⟩).2 with
      | none =>
          refine ⟨[i], ?_, ?_, ?_⟩
          · exact ValidChain.cons hi (hnext ▸ ValidChain.nil)
          · simp
          · simp
      | some k =>
          have hk : k < i := hwf i hi k hnext
          obtain ⟨is, hchain, hnodup, hbound⟩ := ih k hk (hk.trans hi)
          refine ⟨i :: is, ?_, ?_, ?_⟩
          · exact ValidChain.cons hi (hnext ▸ hchain)
          · refine List.nodup_cons.mpr ⟨?_, hnodup⟩
            intro hmem
            exact absurd (hbound i hmem) (by omega)
          · intro j hj
            rcases List.mem_cons.mp hj with rfl | hj
            · exact Nat.le_refl j
            · exact (hbound j hj).trans hk.le

theorem wf_new (α : Type) : WF (new α) := by
  constructor
  · intro j h
    simp [new] at h
  · intro i h
    simp [new] at h

theorem wf_push {α : Type} {s : HState α} (v : α) (hs : WF s) :
    WF (s.push v) := by
  obtain ⟨h1, h2⟩ := hs
  constructor
  · intro j hj k hk
    simp only [HState.push] at hj hk
    by_cases hjl : j < s.nodes.length
    · exact h1 j hjl k (by rwa [List.get_append _ hjl] at hk)
    · have hjeq : j = s.nodes.length := by
        simp at hj
        omega
      have hget : (s.nodes ++ [(v, s.head)]).get ⟨j, hj⟩ = (v, s.head) := by
        rw [List.get_eq_getElem]
        exact List.getElem_concat_length _ _ _ hjeq _
      rw [hget] at hk
      have := h2 k hk
      omega
  · intro i hi
    simp only [HState.push] at hi ⊢
    simp at hi ⊢
    omega

theorem wf_drainSwap {α : Type} {s : HState α} (hs : WF s) :
    WF s.drainSwap := by
  obtain ⟨h1, _⟩ := hs
  exact ⟨h1, by intro i hi; cases hi⟩

theorem wf_dropSwap {α : Type} {s : HState α} (hs : WF s) :
    WF s.dropSwap := by
  obtain ⟨h1, _⟩ := hs
  exact ⟨h1, by intro i hi; cases hi⟩

theorem wf_head_unreferenced {α : Type} {s : HState α} (hs : WF s)
    {i : Nat} (hi : s.head = some i) :
    ∀ j (h : j < s.nodes.length), (s.nodes.get ⟨j, h⟩).2 ≠ some i := by
  intro j hj hlink
  have hk : i < j := hs.1 j hj i hlink
  have : i + 1 = s.nodes.length := hs.2 i hi
  omega

end HState

theorem from_raw_into_raw {α : Type} (p : NodePtr α) :
    from_raw (into_raw p) = p := by
  cases p <;> rfl

theorem drain_eq_drainAll {α : Type} (head : NodePtr α) :
    drain head = AtomicListIterator.drainAll head := by
  simp [drain, AtomicList.intoIter, from_raw_into_raw]

theorem drainAll_push {α : Type} (head : NodePtr α) (v : α) :
    AtomicListIterator.drainAll (AtomicList.push head v) =
      v :: AtomicListIterator.drainAll head := by
  rw [AtomicList.push, AtomicList.pushLoop, AtomicListIterator.drainAll]

theorem drainAll_pushSeq {α : Type} (vs : List α) (head : NodePtr α) :
    AtomicListIterator.drainAll (AtomicList.pushSeq head vs) =
      vs.reverse ++ AtomicListIterator.drainAll head := by
  induction vs generalizing head with
  | nil => simp [AtomicList.pushSeq]
  | cons v vs ih =>
      simp only [AtomicList.pushSeq, List.foldl_cons] at ih ⊢
      rw [ih (AtomicList.push head v), drainAll_push]
      simp

theorem pushLoop_eq {α : Type} (value : α) (current : NodePtr α)
    (failures : List (NodePtr α)) :
    AtomicList.pushLoop value current failures =
      some (Node.mk value (failures.getLastD current)) := by
  induction failures generalizing current with
  | nil => rfl
  | cons actual rest ih =>
      rw [AtomicList.pushLoop, ih, List.getLastD_cons]

theorem stateAfter_none {α : Type} (k : Nat) :
    AtomicListIterator.stateAfter (none : NodePtr α) k = none := by
  induction k with
  | zero => rfl
  | succ k ih =>
      rw [AtomicListIterator.stateAfter]
      exact ih

theorem stateAfter_drainAll_length {α : Type} :
    (s : NodePtr α) →
      AtomicListIterator.stateAfter s (AtomicListIterator.drainAll s).length = none
  | none => by rw [AtomicListIterator.drainAll]; rfl
  | some (Node.mk v nx) => by
      rw [AtomicListIterator.drainAll, List.length_cons,
        AtomicListIterator.stateAfter]
      show AtomicListIterator.stateAfter (from_raw (into_raw nx))
        (AtomicListIterator.drainAll nx).length = none
      rw [from_raw_into_raw]
      exact stateAfter_drainAll_length nx

theorem stateAfter_add {α : Type} (s : NodePtr α) (m k : Nat) :
    AtomicListIterator.stateAfter s (m + k) =
      AtomicListIterator.stateAfter (AtomicListIterator.stateAfter s m) k := by
  induction m generalizing s with
  | zero => rw [Nat.zero_add]; rfl
  | succ m ih =>
      rw [Nat.succ_add, AtomicListIterator.stateAfter,
        AtomicListIterator.stateAfter]
      exact ih _

theorem dropGlueDepth_eq_length {α : Type} :
    (s : NodePtr α) → dropGlueDepth s = (AtomicListIterator.drainAll s).length
  | none => by rw [dropGlueDepth, AtomicListIterator.drainAll]; rfl
  | some (Node.mk v nx) => by
      rw [dropGlueDepth, AtomicListIterator.drainAll, List.length_cons,
        dropGlueDepth_eq_length nx]

theorem allocCount_casLoopEvents {α : Type} (v : α) :
    ∀ (failures : List (NodePtr α)) (current : NodePtr α),
      allocCount (casLoopEvents v current failures) = 0 := by
  intro failures
  induction failures with
  | nil => intro current; rfl
  | cons actual rest ih =>
      intro current
      simp only [casLoopEvents, allocCount, List.filter_cons] at ih ⊢
      exact ih actual

/-! The claims. -/

/-- C1: for every sequence of values pushed single-threadedly onto a list,
draining the list yields the values in last-inserted-first (LIFO) order; in
particular, pushing 1, then 2, then 3 and draining yields exactly the
sequence [3, 2, 1]. -/
theorem claim1_drain_lifo :
    (∀ (α : Type) (vs : List α),
      drain (AtomicList.pushSeq (AtomicList.new α) vs) = vs.reverse) ∧
    drain (AtomicList.pushSeq (AtomicList.new Nat) [1, 2, 3]) = [3, 2, 1] := by
  have h : ∀ (α : Type) (vs : List α),
      drain (AtomicList.pushSeq (AtomicList.new α) vs) = vs.reverse := by
    intro α vs
    rw [drain_eq_drainAll, drainAll_pushSeq]
    show vs.reverse ++ AtomicListIterator.drainAll none = vs.reverse
    rw [AtomicListIterator.drainAll, List.append_nil]
  exact ⟨h, by rw [h]; rfl⟩

/-- C2: for every finite multiset of values inserted into a list, draining
afterward yields exactly that multiset: same membership count for every
value, nothing missing, nothing duplicated. -/
theorem claim2_drain_multiset :
    ∀ (α : Type) [DecidableEq α] (vs : List α),
      List.Perm (drain (AtomicList.pushSeq (AtomicList.new α) vs)) vs ∧
      ∀ v : α, (drain (AtomicList.pushSeq (AtomicList.new α) vs)).count v =
        vs.count v := by
  intro α _ vs
  have h : drain (AtomicList.pushSeq (AtomicList.new α) vs) = vs.reverse := by
    rw [drain_eq_drainAll, drainAll_pushSeq]
    show vs.reverse ++ AtomicListIterator.drainAll none = vs.reverse
    rw [AtomicListIterator.drainAll, List.append_nil]
  rw [h]
  exact ⟨List.reverse_perm vs, fun v => List.count_reverse v vs⟩

/-- C3: the teardown of `impl Drop for AtomicList` hands the whole remaining
chain to the derived, structurally recursive destructor of `Node` (no
iterative walk appears in the code), so the destructor nesting depth equals
the chain length — for a chain of 1,000,000 undrained nodes the drop glue
nests 1,000,000 frames deep instead of staying bounded. -/
theorem claim3_drop_recursion_depth :
    (∀ (α : Type) (s : NodePtr α),
      dropGlueDepth (AtomicList.dropImpl s) =
        (AtomicListIterator.drainAll s).length) ∧
    dropGlueDepth (AtomicList.dropImpl
      (AtomicList.pushSeq (AtomicList.new Nat) (List.range 1000000))) =
      1000000 := by
  have h : ∀ (α : Type) (s : NodePtr α),
      dropGlueDepth (AtomicList.dropImpl s) =
        (AtomicListIterator.drainAll s).length := by
    intro α s
    rw [AtomicList.dropImpl, from_raw_into_raw, dropGlueDepth_eq_length]
  refine ⟨h, ?_⟩
  rw [h, drainAll_pushSeq]
  show ((List.range 1000000).reverse ++ AtomicListIterator.drainAll none).length
    = 1000000
  rw [AtomicListIterator.drainAll, List.append_nil, List.length_reverse,
    List.length_range]

/-- C4: a push whose CAS fails any finite number of times before succeeding
still delivers the value exactly once to a subsequent drain; the node is
allocated once before the loop and never reallocated, whatever the number of
retries. -/
theorem claim4_push_retry_no_loss :
    ∀ (α : Type) [DecidableEq α] (v : α) (current : NodePtr α)
      (failures : List (NodePtr α)),
      AtomicListIterator.drainAll (AtomicList.pushLoop v current failures) =
        v :: AtomicListIterator.drainAll (failures.getLastD current) ∧
      (v ∉ AtomicListIterator.drainAll (failures.getLastD current) →
        (AtomicListIterator.drainAll
          (AtomicList.pushLoop v current failures)).count v = 1) ∧
      allocCount (pushEvents v current failures) = 1 := by
  intro α _ v current failures
  have hdrain : AtomicListIterator.drainAll (AtomicList.pushLoop v current failures) =
      v :: AtomicListIterator.drainAll (failures.getLastD current) := by
    rw [pushLoop_eq, AtomicListIterator.drainAll]
  refine ⟨hdrain, ?_, ?_⟩
  · intro hnotmem
    rw [hdrain, List.count_cons_self, List.count_eq_zero_of_not_mem hnotmem]
  · have h0 := allocCount_casLoopEvents v failures current
    show allocCount (PushEvent.alloc (Node.mk v none) ::
      PushEvent.headLoad MemOrdering.Relaxed current ::
        casLoopEvents v current failures) = 1
    simp only [allocCount] at h0 ⊢
    rw [List.filter_cons_of_pos rfl,
      List.filter_cons_of_neg (by simp), List.length_cons, h0]

/-- Witness for C4 at a concrete input: a push of 5 with one failed CAS
attempt that observed the chain [1]; the value 5 is absent from that chain
and appears exactly once in the drain of the final chain. -/
theorem claim4_push_retry_no_loss_witness :
    (5 ∉ AtomicListIterator.drainAll
      (([some (Node.mk 1 none)] : List (NodePtr Nat)).getLastD none)) ∧
    (AtomicListIterator.drainAll
      (AtomicList.pushLoop 5 none [some (Node.mk 1 none)])).count 5 = 1 := by
  have hnotmem : (5 : Nat) ∉ AtomicListIterator.drainAll
      (([some (Node.mk 1 none)] : List (NodePtr Nat)).getLastD none) := by
    show (5 : Nat) ∉ AtomicListIterator.drainAll (some (Node.mk 1 none))
    rw [AtomicListIterator.drainAll, AtomicListIterator.drainAll]
    simp
  exact ⟨hnotmem,
    (claim4_push_retry_no_loss Nat 5 none [some (Node.mk 1 none)]).2.1 hnotmem⟩

/-- C5: construction takes no parameters, never fails, and produces the empty
list (head is the null sentinel); draining a newly constructed list yields an
empty sequence with zero elements. -/
theorem claim5_new_empty :
    ∀ (α : Type),
      AtomicList.new α = (none : NodePtr α) ∧
      drain (AtomicList.new α) = ([] : List α) ∧
      (drain (AtomicList.new α)).length = 0 := by
  intro α
  have hnil : drain (AtomicList.new α) = ([] : List α) := by
    rw [drain_eq_drainAll]
    show AtomicListIterator.drainAll none = []
    rw [AtomicListIterator.drainAll]
  exact ⟨rfl, hnil, by rw [hnil]; rfl⟩

/-- C6: the drained sequence is single-use and stays exhausted: after the
iterator has consumed all elements of its chain, its cursor is null and every
subsequent call to `next` yields nothing, on every subsequent call. -/
theorem claim6_iterator_exhausted :
    ∀ (α : Type) (s : NodePtr α) (k : Nat),
      AtomicListIterator.stateAfter s
        ((AtomicListIterator.drainAll s).length + k) = none ∧
      (AtomicListIterator.next (AtomicListIterator.stateAfter s
        ((AtomicListIterator.drainAll s).length + k))).1 = none := by
  intro α s k
  have hstate : AtomicListIterator.stateAfter s
      ((AtomicListIterator.drainAll s).length + k) = none := by
    rw [stateAfter_add, stateAfter_drainAll_length, stateAfter_none]
  exact ⟨hstate, by rw [hstate]; rfl⟩

/-- C7: on a non-empty chain, one call to `next` detaches exactly the first
node, returns its value, and advances the cursor to its link, leaving the
remaining chain and all its values unchanged. -/
theorem claim7_next_detaches_head :
    ∀ (α : Type) (v : α) (rest : NodePtr α),
      AtomicListIterator.next (some (Node.mk v rest)) = (some v, rest) ∧
      AtomicListIterator.drainAll (some (Node.mk v rest)) =
        v :: AtomicListIterator.drainAll rest := by
  intro α v rest
  constructor
  · show (some v, from_raw (into_raw rest)) = (some v, rest)
    rw [from_raw_into_raw]
  · rw [AtomicListIterator.drainAll]

/-- C8: every operation (construction, push, the drain swap, the teardown
swap) preserves the well-formedness of the head, and under that invariant, at
any instant exactly one of the following holds: the head is the null
sentinel, or the head addresses an allocated node that no other node links to
(unique ownership) and that heads an acyclic (duplicate-free) chain. -/
theorem claim8_head_invariant :
    ∀ (α : Type),
      HState.WF (HState.new α) ∧
      (∀ (s : HState α) (v : α), HState.WF s → HState.WF (s.push v)) ∧
      (∀ s : HState α, HState.WF s → HState.WF s.drainSwap) ∧
      (∀ s : HState α, HState.WF s → HState.WF s.dropSwap) ∧
      (∀ s : HState α, HState.WF s →
        (s.head = none ∧ ¬ (∃ i, s.head = some i)) ∨
        (s.head ≠ none ∧ ∃ i, s.head = some i ∧
          (∃ is, HState.ValidChain s.nodes (some i) is ∧ is.Nodup) ∧
          ∀ j (h : j < s.nodes.length), (s.nodes.get ⟨j, h⟩).2 ≠ some i)) := by
  intro α
  refine ⟨HState.wf_new α, fun s v hs => HState.wf_push v hs,
    fun s hs => HState.wf_drainSwap hs, fun s hs => HState.wf_dropSwap hs, ?_⟩
  intro s hs
  cases hhead : s.head with
  | none =>
      left
      exact ⟨rfl, by rintro ⟨i, hi⟩; cases hi⟩
  | some i =>
      right
      have hi : i < s.nodes.length := by
        have := hs.2 i hhead
        omega
      obtain ⟨is, hchain, hnodup, _⟩ := HState.exists_validChain s.nodes hs.1 i hi
      exact ⟨by simp, i, rfl, ⟨is, hchain, hnodup⟩,
        HState.wf_head_unreferenced hs hhead⟩

/-- Witness for C8 at a concrete input: the empty list is well-formed and so
is the list after pushing 3 onto it. -/
theorem claim8_head_invariant_witness :
    HState.WF (HState.new Nat) ∧
    HState.WF ((HState.new Nat).push 3) :=
  ⟨(claim8_head_invariant Nat).1,
    (claim8_head_invariant Nat).2.1 (HState.new Nat) 3
      (claim8_head_invariant Nat).1⟩

/-- C9: in every terminating run of the push loop, the CAS on the head uses
acquire-release ordering on its single successful attempt and relaxed
ordering on every failed attempt. -/
theorem claim9_cas_orderings :
    ∀ (α : Type) (v : α) (head0 : NodePtr α) (failures : List (NodePtr α)),
      casSuccessOrds (pushEvents v head0 failures) = [MemOrdering.AcqRel] ∧
      casFailureOrds (pushEvents v head0 failures) =
        failures.map (fun _ => MemOrdering.Relaxed) := by
  intro α v head0 failures
  have hsucc : ∀ (fs : List (NodePtr α)) (c : NodePtr α),
      casSuccessOrds (casLoopEvents v c fs) = [MemOrdering.AcqRel] := by
    intro fs
    induction fs with
    | nil => intro c; rfl
    | cons a rest ih =>
        intro c
        simp only [casLoopEvents, casSuccessOrds, List.filterMap_cons] at ih ⊢
        exact ih a
  have hfail : ∀ (fs : List (NodePtr α)) (c : NodePtr α),
      casFailureOrds (casLoopEvents v c fs) =
        fs.map (fun _ => MemOrdering.Relaxed) := by
    intro fs
    induction fs with
    | nil => intro c; rfl
    | cons a rest ih =>
        intro c
        simp only [casLoopEvents, casFailureOrds, List.filterMap_cons,
          List.map_cons] at ih ⊢
        rw [ih a]
  constructor
  · show casSuccessOrds (PushEvent.alloc (Node.mk v none) ::
      PushEvent.headLoad MemOrdering.Relaxed head0 ::
        casLoopEvents v head0 failures) = [MemOrdering.AcqRel]
    simp only [casSuccessOrds, List.filterMap_cons]
    exact hsucc failures head0
  · show casFailureOrds (PushEvent.alloc (Node.mk v none) ::
      PushEvent.headLoad MemOrdering.Relaxed head0 ::
        casLoopEvents v head0 failures) =
        failures.map (fun _ => MemOrdering.Relaxed)
    simp only [casFailureOrds, List.filterMap_cons]
    exact hfail failures head0

/-- C10: the raw-pointer conversions round-trip: `from_raw (into_raw p) = p`
for every `NodePtr`, with `None` mapped to the null pointer and the null
pointer mapped back to `None`. -/
theorem claim10_raw_roundtrip :
    ∀ (α : Type) (p : NodePtr α),
      from_raw (into_raw p) = p ∧
      into_raw (none : NodePtr α) = RawPtr.null ∧
      from_raw (RawPtr.null : RawPtr α) = none := by
  intro α p
  refine ⟨?_, rfl, rfl⟩
  cases p <;> rfl
